import Mathlib

/-!
Verification of the template patch-and-merge engine of the
`create-android-app` scaffolder.

Strings are modelled as `List Char`.  Each definition mirrors one
JavaScript/TypeScript function of the repository:

* `jsIndexOf?`        — `String.prototype.indexOf` (absent = `none`, JS `-1`);
* `replaceFirst`      — `String.prototype.replace` with a string pattern
                        (first occurrence only);
* `replaceAll`        — `String.prototype.replaceAll` with a string pattern;
* `trim`              — `String.prototype.trim` (ASCII whitespace);
* `keyTest`           — the test of `new RegExp("^" + key + "\\s*=", "m")`
                        for keys made of regex-literal characters: a match
                        may start at position 0 or right after any `"\n"`,
                        and `\s*` may consume any whitespace, including
                        line breaks (as the JS `\s` class does);
* `updateTomlSection` — `AddonManager.updateTomlSection` (src/unnamed/part_004,
                        lines 114-132), at the level of file contents;
* `addonPatchFile`    — `AddonManager.patchFile` (part_004, lines 134-141);
* `patchFile`         — the Placeholder Patcher of
                        `src/src/template/generateProject.ts`;
* `installTrace`      — `AddonManager.install`, as the list of primitive
                        steps it executes, with explicit fuel standing for
                        the recursion depth (the source recursion has no
                        cycle detection, so exhausted fuel = divergence);
* `generateProjectCopyPhase` — the template-copy phase of
                        `generateProject`, as a trace of destination
                        mutations plus an optional fatal error.
-/

/-- ASCII whitespace, as matched by the JS `\s` class and stripped by
`String.prototype.trim`, restricted to the ASCII range (the sources and the
claims only ever deal in ASCII text). -/
def wsChar (c : Char) : Bool :=
  (c == ' ') || (c == '\t') || (c == '\n') || (c == '\r') ||
  (c == '\x0b') || (c == '\x0c')

/-- `line.split('=')[0]`: the characters before the first `=` (the whole
line when there is none). -/
def takeBeforeEq (l : List Char) : List Char :=
  l.takeWhile (fun c => !(c == '='))

/-- Whether a line contains an `=` at all. -/
def hasEq (l : List Char) : Bool :=
  l.any (fun c => c == '=')

/-- Drop trailing whitespace. -/
def dropTrailWs (s : List Char) : List Char :=
  (s.reverse.dropWhile wsChar).reverse

/-- `String.prototype.trim`. -/
def trim (s : List Char) : List Char :=
  dropTrailWs (s.dropWhile wsChar)

/-- `s.indexOf(pat)`: index of the first occurrence of `pat` in `s`,
`none` when there is none (JS returns `-1`). -/
def jsIndexOf? : List Char → List Char → Option Nat
  | s@([]), pat => if pat.isPrefixOf s then some 0 else none
  | s@(_ :: t), pat =>
      if pat.isPrefixOf s then some 0 else (jsIndexOf? t pat).map (· + 1)

/-- `s.includes(pat)`. -/
def hasSub (s pat : List Char) : Bool :=
  (jsIndexOf? s pat).isSome

/-- `s.replace(pat, r)` with a string pattern: replace the first
occurrence only; `s` unchanged when `pat` does not occur. -/
def replaceFirst : List Char → List Char → List Char → List Char
  | [], pat, r => if pat.isPrefixOf ([] : List Char) then r else []
  | s@(c :: t), pat, r =>
      if pat.isPrefixOf s then r ++ s.drop pat.length
      else c :: replaceFirst t pat r

/-- Worker for `replaceAll` with a nonempty pattern; the fuel is the length
of the string, enough because every step consumes at least one character. -/
def replaceAllF : Nat → List Char → List Char → List Char → List Char
  | 0, s, _, _ => s
  | Nat.succ n, s, pat, r =>
      match s with
      | [] => []
      | c :: t =>
          if pat.isPrefixOf s then r ++ replaceAllF n (t.drop (pat.length - 1)) pat r
          else c :: replaceAllF n t pat r

/-- `s.replaceAll('', r)` interleaves `r` between all characters. -/
def interleaveAll : List Char → List Char → List Char
  | [], r => r
  | c :: t, r => r ++ c :: interleaveAll t r

/-- `s.replaceAll(pat, r)` with a string pattern: replace every
(left-to-right, non-overlapping) occurrence. -/
def replaceAll (s pat r : List Char) : List Char :=
  match pat with
  | [] => interleaveAll s r
  | _ :: _ => replaceAllF s.length s pat r

/-- The `\s*=` part of the Merger's key regex: the scanned text must carry
optional whitespace (the JS `\s` class, so line breaks included) and then
a literal `=`. -/
def eqAfterWs : List Char → Bool
  | [] => false
  | c :: r => if c == '=' then true else if wsChar c then eqAfterWs r else false

/-- A match of `key\s*=` starting at the head of `s`. -/
def keyMatchAt (s key : List Char) : Bool :=
  key.isPrefixOf s && eqAfterWs (s.drop key.length)

/-- Matches of `^key\s*=` at positions right after a `"\n"`. -/
def keyTestGo : List Char → List Char → Bool
  | [], _ => false
  | c :: r, key => ((c == '\n') && keyMatchAt r key) || keyTestGo r key

/-- `new RegExp("^" + key + "\\s*=", "m").test(s)`, as a literal-string
matcher: an anchored match of the key at position 0 or right after any
newline, then optional whitespace, then `=`.  The source interpolates the
key into the pattern unescaped, so this equals the program's test exactly
when the key has no regex metacharacter (`regexLit`) and key and text are
plain ASCII without carriage returns (`plainChar`); the theorems that
quantify over keys carry those hypotheses. -/
def keyTest (s key : List Char) : Bool :=
  keyMatchAt s key || keyTestGo s key

/-- Lines 119-125 of `AddonManager.updateTomlSection`: locate the first
occurrence of the section header; the scanned region then runs from the
header up to the next `'['` **character** found anywhere at or after the end
of the header (`content.indexOf('[', sectionIndex + section.length)`), or to
end-of-file.  `none` iff the header is absent. -/
def codeSectionExtent (content sect : List Char) : Option (List Char) :=
  match jsIndexOf? content sect with
  | none => none
  | some sectionIndex =>
      match jsIndexOf? (content.drop (sectionIndex + sect.length)) ['['] with
      | none => some (content.drop sectionIndex)
      | some j => some ((content.take (sectionIndex + sect.length + j)).drop sectionIndex)

/-- `AddonManager.updateTomlSection` (part_004, lines 114-132), on file
contents: extract the candidate key (`line.split('=')[0].trim()`); if the
header is absent, no-op; if the key-anchored regex matches inside the
section extent, no-op; otherwise splice the new line right after the first
occurrence of the header (`content.replace(section, section+'\n'+line)`). -/
def updateTomlSection (content sect line : List Char) : List Char :=
  match codeSectionExtent content sect with
  | none => content
  | some e =>
      if keyTest e (trim (takeBeforeEq line)) then content
      else replaceFirst content sect (sect ++ '\n' :: line)

/-- `AddonManager.patchFile` (part_004, lines 134-141), on file contents:
no-op when the trimmed replacement already occurs anywhere in the file,
otherwise replace the first occurrence of the pattern. -/
def addonPatchFile (content pat repl : List Char) : List Char :=
  if hasSub content (trim repl) then content
  else replaceFirst content pat repl

/-- The Placeholder Patcher `patchFile` of `generateProject.ts` (lines
702-713), on file contents: for each `(key, value)` pair in order, if the
key occurs, replace **all** its occurrences (the `modified` flag of the
source only gates the write-back, not the resulting content). -/
def patchFile (content : List Char) (repl : List (List Char × List Char)) : List Char :=
  repl.foldl (fun acc kv => if hasSub acc kv.1 then replaceAll acc kv.1 kv.2 else acc) content

/-- The step kinds of `AddonStep.type` (part_004, line 6). -/
inductive StepType
  | toml_version
  | toml_library
  | toml_plugin
  | gradle_plugin_root
  | gradle_plugin_module
  | gradle_implementation
  | gradle_ksp
  | patch_file
  | create_file
deriving DecidableEq

/-- `AddonStep` (part_004, lines 5-13): a tag plus optional fields, of which
only some are meaningful for each tag, exactly as in the source. -/
structure AddonStep where
  type : StepType
  key : Option (List Char)
  value : Option (List Char)
  file : Option (List Char)
  pattern : Option (List Char)
  replacement : Option (List Char)
  content : Option (List Char)
deriving DecidableEq

/-- `AddonRecipe` (part_004, lines 15-20). -/
structure AddonRecipe where
  name : List Char
  dependencies : Option (List (List Char))
  steps : List AddonStep
deriving DecidableEq

/-- `key.startsWith('{{') ? key : `{{key}}`` of `applyPatches`
(part_004, line 63). -/
def placeholderOf (k : List Char) : List Char :=
  if (['\x7b', '\x7b'] : List Char).isPrefixOf k then k
  else '\x7b' :: '\x7b' :: (k ++ ['\x7d', '\x7d'])

/-- `AddonManager.applyPatches` (part_004, lines 60-67): fold the version
map over the value, replacing every occurrence of each placeholder. -/
def applyPatches (versions : List (List Char × List Char)) (val : List Char) : List Char :=
  versions.foldl (fun acc kv => replaceAll acc (placeholderOf kv.1) kv.2) val

/-- Lines 48-51 of `AddonManager.install`: the step with its `value`,
`replacement` and `content` fields run through the version substitution. -/
def patchStep (versions : List (List Char × List Char)) (s : AddonStep) : AddonStep :=
  AddonStep.mk s.type s.key ((s.value).map (applyPatches versions)) s.file
    s.pattern ((s.replacement).map (applyPatches versions))
    ((s.content).map (applyPatches versions))

/-- The prerequisite loop of `install` (lines 39-43): install each listed
dependency in order, concatenating the traces; `none` as soon as one
diverges. -/
def installDeps (f : List Char → Option (List AddonStep)) :
    List (List Char) → Option (List AddonStep)
  | [] => some []
  | d :: ds =>
      match f d with
      | none => none
      | some t =>
          match installDeps f ds with
          | none => none
          | some t2 => some (t ++ t2)

/-- `AddonManager.install` (part_004, lines 30-58) as the list of primitive
steps it executes, in order.  `env` abstracts `resolveRecipe` (built-in
table or remote fetch); an unresolvable recipe logs an error and returns
without steps (`some []`).  The fuel bounds the recursion depth: the source
recursion has no cycle detection, so `none` (fuel exhausted at every fuel)
models divergence.  Per-step failures are caught in the source (line 54-56)
after the step was attempted, so every patched step appears in the trace. -/
def installTrace (env : List Char → Option AddonRecipe)
    (versions : List (List Char × List Char)) : Nat → List Char → Option (List AddonStep)
  | 0 => fun _ => none
  | Nat.succ fuel => fun name =>
      match env name with
      | none => some []
      | some r =>
          (installDeps (installTrace env versions fuel) ((r.dependencies).getD [])).map
            (fun t => t ++ r.steps.map (patchStep versions))

/-- `step.key!.replace(..)` with the global dash regex (part_004, lines 85
and 88): every `-` in the key becomes `.`. -/
def dotifyKey (k : List Char) : List Char :=
  k.map (fun c => if c == '-' then '.' else c)

/-- The literal plugins-block opener `'plugins {'`. -/
def pluginsOpener : List Char := ("plugins \x7b").data

/-- The replacement text of a `gradle_plugin_root` step (line 85):
the opener followed by the alias line with `apply false`. -/
def rootPluginRepl (k : List Char) : List Char :=
  ("plugins \x7b\n    alias(libs.plugins.").data ++ dotifyKey k ++ (") apply false").data

/-- The replacement text of a `gradle_plugin_module` step (line 88). -/
def modulePluginRepl (k : List Char) : List Char :=
  ("plugins \x7b\n    alias(libs.plugins.").data ++ dotifyKey k ++ (")").data

/-- The bare root-level alias line, without the opener prefix. -/
def rootAliasLine (k : List Char) : List Char :=
  ("alias(libs.plugins.").data ++ dotifyKey k ++ (") apply false").data

/-- Executing a `gradle_plugin_root` step on the root build file's
contents (line 85): `patchFile(rootBuildFile, 'plugins {', ...)`. -/
def gradlePluginRootStep (content k : List Char) : List Char :=
  addonPatchFile content pluginsOpener (rootPluginRepl k)

/-- Executing a `gradle_plugin_module` step on the module build file's
contents (line 88). -/
def gradlePluginModuleStep (content k : List Char) : List Char :=
  addonPatchFile content pluginsOpener (modulePluginRepl k)

/-- The destination-tree mutations of `generateProject`'s template-copy
phase (`generateProject.ts`, lines 536-613 of the concatenated sources):
`fs.ensureDir(projectPath)`, `fs.copy(baseTemplate, projectPath)`,
`fs.remove(projectPath/app)`, the `_gitignore` → `.gitignore` move, and
`fs.copy(uiTemplate, projectPath)`. -/
inductive GenAction
  | ensureDir
  | copyBase
  | removeApp
  | moveGitignore
  | copyVariant
deriving DecidableEq

/-- The fatal message of `generateProject` when the base template
directory is missing (line 593). -/
def baseMissingMsg : List Char := ("Base template not found").data

/-- The fatal message when the variant (UI) template directory is missing
(line 612). -/
def uiMissingMsg : List Char := ("UI template not found").data

/-- The template-copy phase of `generateProject` (lines 536-613): the
destination mutations performed, in order, paired with the fatal error it
aborts with, if any.  `fs.ensureDir(projectPath)` runs first (line 540);
version resolution follows but touches no destination path; the base
existence check is at line 592, the copies at 597-609, and the variant
existence check at 608-613, in exactly this order. -/
def generateProjectCopyPhase (baseExists uiExists isLibrary gitignoreExists : Bool) :
    List GenAction × Option (List Char) :=
  let a1 : List GenAction := [GenAction.ensureDir]
  if baseExists = false then (a1, some baseMissingMsg)
  else
    let a2 := a1 ++ [GenAction.copyBase]
      ++ (if isLibrary then [GenAction.removeApp] else [])
      ++ (if gitignoreExists then [GenAction.moveGitignore] else [])
    if uiExists = false then (a2, some uiMissingMsg)
    else (a2 ++ [GenAction.copyVariant], none)

/-- ASCII lower-casing, as `String.prototype.toLowerCase` acts on the
ASCII project names the claims speak about. -/
def lowerAscii (c : Char) : Char :=
  if 'A' ≤ c ∧ c ≤ 'Z' then Char.ofNat (c.toNat + 32) else c

/-- The `[a-z0-9]` class of the sanitizer. -/
def isLowerAlnum (c : Char) : Bool :=
  (('a' ≤ c) && (c ≤ 'z')) || (('0' ≤ c) && (c ≤ '9'))

/-- The `[0-9]` class. -/
def isDigitC (c : Char) : Bool :=
  ('0' ≤ c) && (c ≤ '9')

/-- `projectName.toLowerCase().replace(/[^a-z0-9]/g, '').replace(/^[0-9]+/, '')`
(`generateProject.ts`, line 616). -/
def safeProjectNameOf (n : List Char) : List Char :=
  ((n.map lowerAscii).filter isLowerAlnum).dropWhile isDigitC

/-- `` `com.example.${safeProjectName || 'androidapp'}` `` (line 617). -/
def packageNameOf (n : List Char) : List Char :=
  ("com.example.").data ++
    (if safeProjectNameOf n = [] then ("androidapp").data else safeProjectNameOf n)

/-- Prepend a character to the first of a list of lines. -/
def consHead (c : Char) : List (List Char) → List (List Char)
  | [] => [[c]]
  | l :: ls => (c :: l) :: ls

/-- Split a text into its lines at `'\n'` (a trailing newline yields a
final empty line, as `"a\n"` has lines `a` and ``). -/
def splitNl : List Char → List (List Char)
  | [] => [[]]
  | c :: r => if c = '\n' then [] :: splitNl r else consHead c (splitNl r)

/-- Join lines back with `'\n'` separators. -/
def joinLines : List (List Char) → List Char
  | [] => []
  | [l] => l
  | l :: ls => l ++ '\n' :: joinLines ls

/-- A configuration document that starts with the section header followed
by its body lines. -/
def mkDoc (sect : List Char) (body : List (List Char)) : List Char :=
  sect ++ '\n' :: joinLines body

/-- The key of a `key = value` line, as the Merger extracts it
(`line.split('=')[0].trim()`). -/
def keyOfLine (l : List Char) : List Char :=
  trim (takeBeforeEq l)


/-- Characters the source may interpolate into the Merger's key regex that
the JS engine treats as literal text: everything except the regex
metacharacters `^ $ \\ . * + ? ( ) [ ] \x7b \x7d |`.  The source builds
`new RegExp("^" + key + "\\s*=", "m")` with the key unescaped, so only for
keys made of these characters does the regex test for the key as written;
every catalog key the repository uses (`ktor-client-core`,
`kotlin-serialization`, ...) is of this shape. -/
def regexLit (c : Char) : Bool :=
  !((c == '^') || (c == '$') || (c == '\\') || (c == '.') || (c == '*') ||
    (c == '+') || (c == '?') || (c == '(') || (c == ')') || (c == '[') ||
    (c == ']') || (c == '\x7b') || (c == '\x7d') || (c == '|'))

/-- Characters on which the Lean text model and the JS regex engine agree:
ASCII without carriage return.  Outside ASCII the JS `\s` class and the
`m`-flag anchors admit extra whitespace and line-terminator characters
(`\u00a0`, `\u2028`, ...), and `'\r'` is an extra anchor point, none of
which the model tracks. -/
def plainChar (c : Char) : Bool :=
  (c.toNat < 128) && !(c == '\r')

/-- Plain ASCII, carriage-return-free text: on such text the model's
line-start anchors and whitespace class are exactly the JS ones. -/
def plainText (s : List Char) : Bool :=
  s.all plainChar

/-- A candidate key on which the model's literal matcher is exactly the
source's interpolated regex: plain characters, none of them a regex
metacharacter. -/
def literalKey (k : List Char) : Bool :=
  k.all (fun c => plainChar c && regexLit c)

/-- An insertion line the JS engine processes exactly as the model does:
plain characters, no `'$'` (so the `$`-substitution of the JS
`String.replace` replacement string is inert), and a
regex-metacharacter-free key. -/
def literalInsertLine (l : List Char) : Bool :=
  l.all (fun c => plainChar c && !(c == '$')) && (keyOfLine l).all regexLit

/-- A well-formed catalog entry line: no newline and no `[` anywhere, a
non-whitespace, non-`=` first character, and at least one `=`.  Such a
line is exactly `key ++ ws ++ '=' ++ rest` with a nonempty trimmed key. -/
def goodLine (l : List Char) : Bool :=
  l.all (fun c => !(c == '\n') && !(c == '[')) &&
  (match l with
   | [] => false
   | c :: _ => !wsChar c && !(c == '=')) &&
  hasEq l

/-- A well-formed section header: starts with `[` and spans one line. -/
def goodSect (sect : List Char) : Bool :=
  (match sect with
   | [] => false
   | c :: _ => c == '[') &&
  sect.all (fun c => !(c == '\n'))

/-- The keys declared by a list of body lines: one key per line that
contains an `=`. -/
def sectionKeys (body : List (List Char)) : List (List Char) :=
  (body.filter hasEq).map keyOfLine

/-- A body invariant: at least one line, every line a well-formed entry or
blank. -/
def goodBody (body : List (List Char)) : Bool :=
  (!(body.isEmpty)) && body.all (fun l => goodLine l || l.isEmpty)

/-- What one Merger insertion does to the body lines of a header-first,
bracket-free document: skip when the key is already declared, otherwise
put the new line right under the header. -/
def insertBody (line : List Char) (body : List (List Char)) : List (List Char) :=
  if (sectionKeys body).contains (keyOfLine line) then body else line :: body

/-- Whether a text starts with `'['`. -/
def headIsBracket : List Char → Bool
  | [] => false
  | c :: _ => c == '['

/-- Take the text up to (excluding) the next line that starts with `[`:
the terminator is a `'\n'` immediately followed by `'['`; the `'\n'`
itself still belongs to the region. -/
def specTake : List Char → List Char
  | [] => []
  | c :: r => if (c == '\n') && headIsBracket r then ['\n'] else c :: specTake r

/-- Modelled from the spec (section 4.2, step 3): the section's extent runs
from the header to the next top-level section header — the next **line
starting with** `[` — or to end-of-file.  This is the claim's notion of
the scanned region, to be compared with `codeSectionExtent`. -/
def specSectionExtent (content sect : List Char) : Option (List Char) :=
  match jsIndexOf? content sect with
  | none => none
  | some i =>
      some (((content.drop i).take sect.length) ++ specTake (content.drop (i + sect.length)))

/-- The keys of the section as the claims read them: the lines of the
section's extent (per the spec's line-anchored notion), header dropped,
one key per `=`-carrying line. -/
def claimSectionKeys (content sect : List Char) : List (List Char) :=
  match specSectionExtent content sect with
  | none => []
  | some e => sectionKeys ((splitNl e).drop 1)

/-- An anchored occurrence of `key\s*=` in `s`: at position 0 or right
after a newline, the key, then whitespace (possibly spanning line breaks),
then `=`.  This is the exact semantics of the Merger's duplicate test. -/
def AnchoredKeyMatch (s key : List Char) : Prop :=
  ∃ pre w post, s = pre ++ key ++ w ++ '=' :: post ∧
    (pre = [] ∨ ∃ p2, pre = p2 ++ ['\n']) ∧
    (∀ c ∈ w, wsChar c = true)

/-- The claim's line-local suppression predicate: the line begins with
exactly the candidate key, followed by optional whitespace and `=`. -/
def lineBeginsKeyEq (l key : List Char) : Bool :=
  key.isPrefixOf l && eqAfterWs (l.drop key.length)

/-- The `[versions]` header literal. -/
def versionsHeader : List Char := ("[versions]").data

/-- The `[libraries]` header literal. -/
def librariesHeader : List Char := ("[libraries]").data

/-- A fresh catalog document holding only the `[versions]` header. -/
def c1start : List Char := ("[versions]\n").data

/-- The final document of the duplicate-key scenario: insert `b = 1`, then
a line whose value contains `[`, then `b = 2` again. -/
def c1final : List Char :=
  updateTomlSection
    (updateTomlSection
      (updateTomlSection c1start versionsHeader (("b = 1").data))
      versionsHeader (("a = \"x[y\"").data))
    versionsHeader (("b = 2").data)

/-- A document whose section holds a bare `ktor` line followed by a `= 1`
line: no single line is a `ktor`-keyed entry. -/
def c2doc : List Char := ("[versions]\nktor\n= 1\n").data

/-- A `[libraries]` document already declaring `ktor-client-core`. -/
def c2docA : List Char := ("[libraries]\nktor-client-core = \"x\"\n").data

/-- A `[libraries]` document already declaring `ktor`. -/
def c2docB : List Char := ("[libraries]\nktor = \"1\"\n").data

/-- A document with a `[` inside a value line, before a later `bar` entry. -/
def c3doc : List Char := ("[versions]\nfoo = \"a[b\"\nbar = 1\n").data

/-- A root build file whose plugins block already activates the `ksp`
alias, but with another plugin line between the opener and the alias. -/
def c6doc : List Char :=
  ("plugins \x7b\n    id(\"a\")\n    alias(libs.plugins.ksp) apply false\n\x7d\n").data

/-- The brace-delimited token `\x7b\x7bA\x7d\x7d`. -/
def c7tok : List Char := ("\x7b\x7bA\x7d\x7d").data

/-- A replacement map whose value re-introduces its own token. -/
def c7map : List (List Char × List Char) := [(c7tok, c7tok ++ [Char.ofNat 120])]

/-- The token `\x7b\x7bNAME\x7d\x7d`. -/
def c7tokName : List Char := ("\x7b\x7bNAME\x7d\x7d").data

/-- A file containing one `NAME` token. -/
def c7hello : List Char := ("hello \x7b\x7bNAME\x7d\x7d").data

/-- A benign replacement map: the token disappears after one pass. -/
def c7mapGood : List (List Char × List Char) := [(c7tokName, ("world").data)]

/-- A single primitive step used by the depth-first witness recipes. -/
def mkVersionStep (k v : List Char) : AddonStep :=
  AddonStep.mk StepType.toml_version (some k) (some v) none none none none

/-- Witness recipe `c`: no prerequisites, one step. -/
def recC : AddonRecipe :=
  AddonRecipe.mk (("c").data) none [mkVersionStep (("ck").data) (("3").data)]

/-- Witness recipe `b`: prerequisite `c`, one step. -/
def recB : AddonRecipe :=
  AddonRecipe.mk (("b").data) (some [("c").data]) [mkVersionStep (("bk").data) (("2").data)]

/-- Witness recipe `a`: prerequisite `b`, one step. -/
def recA : AddonRecipe :=
  AddonRecipe.mk (("a").data) (some [("b").data]) [mkVersionStep (("ak").data) (("1").data)]

/-- The registry holding the three chained witness recipes. -/
def env3 : List Char → Option AddonRecipe := fun n =>
  if n = ("a").data then some recA
  else if n = ("b").data then some recB
  else if n = ("c").data then some recC
  else none

/-- A recipe with no prerequisites at all. -/
def recSolo : AddonRecipe :=
  AddonRecipe.mk (("solo").data) none [mkVersionStep (("sk").data) (("1").data)]

/-- A registry holding only the prerequisite-free recipe. -/
def envSolo : List Char → Option AddonRecipe := fun n =>
  if n = ("solo").data then some recSolo else none

/-- A recipe whose prerequisite list contains itself. -/
def recLoop : AddonRecipe :=
  AddonRecipe.mk (("loop").data) (some [("loop").data]) [mkVersionStep (("lk").data) (("1").data)]

/-- A registry holding the self-referential recipe. -/
def envLoop : List Char → Option AddonRecipe := fun n =>
  if n = ("loop").data then some recLoop else none


theorem isPrefixOf_append_self (a b : List Char) : a.isPrefixOf (a ++ b) = true := by
  induction a with
  | nil => simp [List.isPrefixOf]
  | cons c t ih => simp [List.isPrefixOf, ih]

theorem isPrefixOf_nil_iff (pat : List Char) : pat.isPrefixOf ([] : List Char) = true ↔ pat = [] := by
  cases pat <;> simp [List.isPrefixOf]

theorem prefix_of_isPrefixOf {pat s : List Char} (h : pat.isPrefixOf s = true) :
    ∃ rest, s = pat ++ rest := by
  rcases (List.isPrefixOf_iff_prefix.mp h) with ⟨rest, hr⟩
  exact ⟨rest, hr.symm⟩

theorem jsIndexOf_eq_some {s pat : List Char} {i : Nat} (h : jsIndexOf? s pat = some i) :
    pat.isPrefixOf (s.drop i) = true ∧ ∀ k, k < i → pat.isPrefixOf (s.drop k) = false := by
  induction s generalizing i with
  | nil =>
      by_cases hp : pat.isPrefixOf ([] : List Char) = true
      · simp [jsIndexOf?, hp] at h
        subst h
        exact ⟨by simpa using hp, by omega⟩
      · simp [jsIndexOf?, Bool.eq_false_iff.mpr hp] at h
  | cons c t ih =>
      by_cases hp : pat.isPrefixOf (c :: t) = true
      · simp [jsIndexOf?, hp] at h
        subst h
        exact ⟨by simpa using hp, by omega⟩
      · simp [jsIndexOf?, Bool.eq_false_iff.mpr hp] at h
        rcases h with ⟨j, hj, hji⟩
        rcases ih hj with ⟨h1, h2⟩
        subst hji
        refine ⟨by simpa using h1, ?_⟩
        intro k hk
        cases k with
        | zero => simpa using Bool.eq_false_iff.mpr hp
        | succ k' => simpa using h2 k' (by omega)

theorem jsIndexOf_eq_none {s pat : List Char} (h : jsIndexOf? s pat = none) :
    ∀ k, pat.isPrefixOf (s.drop k) = false := by
  induction s with
  | nil =>
      intro k
      by_cases hp : pat.isPrefixOf ([] : List Char) = true
      · simp [jsIndexOf?, hp] at h
      · simpa using Bool.eq_false_iff.mpr hp
  | cons c t ih =>
      intro k
      by_cases hp : pat.isPrefixOf (c :: t) = true
      · simp [jsIndexOf?, hp] at h
      · simp [jsIndexOf?, Bool.eq_false_iff.mpr hp] at h
        cases k with
        | zero => simpa using Bool.eq_false_iff.mpr hp
        | succ k' => simpa using ih h k'

theorem jsIndexOf_of_isPrefixOf {s pat : List Char} (h : pat.isPrefixOf s = true) :
    jsIndexOf? s pat = some 0 := by
  cases s <;> simp [jsIndexOf?, h]

theorem replaceFirst_of_indexOf {s pat : List Char} {i : Nat} (r : List Char)
    (h : jsIndexOf? s pat = some i) :
    replaceFirst s pat r = s.take i ++ r ++ s.drop (i + pat.length) := by
  induction s generalizing i with
  | nil =>
      by_cases hp : pat.isPrefixOf ([] : List Char) = true
      · simp [jsIndexOf?, hp] at h
        subst h
        rcases (isPrefixOf_nil_iff pat).mp hp with hp2
        simp [replaceFirst, hp, hp2]
      · simp [jsIndexOf?, Bool.eq_false_iff.mpr hp] at h
  | cons c t ih =>
      by_cases hp : pat.isPrefixOf (c :: t) = true
      · simp [jsIndexOf?, hp] at h
        subst h
        simp [replaceFirst, hp]
      · simp [jsIndexOf?, Bool.eq_false_iff.mpr hp] at h
        rcases h with ⟨j, hj, hji⟩
        subst hji
        have : j + 1 + pat.length = (j + pat.length) + 1 := by omega
        simp [replaceFirst, Bool.eq_false_iff.mpr hp, ih hj, this]

theorem replaceFirst_of_none {s pat : List Char} (r : List Char)
    (h : jsIndexOf? s pat = none) : replaceFirst s pat r = s := by
  induction s with
  | nil =>
      by_cases hp : pat.isPrefixOf ([] : List Char) = true
      · simp [jsIndexOf?, hp] at h
      · simp [replaceFirst, Bool.eq_false_iff.mpr hp]
  | cons c t ih =>
      by_cases hp : pat.isPrefixOf (c :: t) = true
      · simp [jsIndexOf?, hp] at h
      · simp [jsIndexOf?, Bool.eq_false_iff.mpr hp] at h
        simp [replaceFirst, Bool.eq_false_iff.mpr hp, ih h]

theorem singletonPrefix_iff (x : Char) (s : List Char) :
    (([x] : List Char).isPrefixOf s = true) ↔ s.head? = some x := by
  cases s with
  | nil => simp [List.isPrefixOf]
  | cons c t =>
      simp [List.isPrefixOf]
      constructor
      · intro h; exact (h.symm : c = x).symm ▸ rfl
      · intro h; cases h; rfl

theorem eqAfterWs_of_ws {w : List Char} (t : List Char)
    (hw : ∀ c ∈ w, wsChar c = true) : eqAfterWs (w ++ '=' :: t) = true := by
  induction w with
  | nil => simp [eqAfterWs]
  | cons c r ih =>
      have hc : wsChar c = true := hw c (by simp)
      have hr : ∀ x ∈ r, wsChar x = true := fun x hx => hw x (by simp [hx])
      by_cases he : c = '='
      · simp [eqAfterWs, he]
      · simp [eqAfterWs, he, hc, ih hr]

theorem eqAfterWs_elim {x : List Char} (h : eqAfterWs x = true) :
    ∃ w t, x = w ++ '=' :: t ∧ ∀ c ∈ w, wsChar c = true := by
  induction x with
  | nil => simp [eqAfterWs] at h
  | cons c r ih =>
      by_cases he : c = '='
      · exact ⟨[], r, by simp [he], by simp⟩
      · by_cases hw : wsChar c = true
        · simp [eqAfterWs, he, hw] at h
          rcases ih h with ⟨w, t, hx, hws⟩
          refine ⟨c :: w, t, by simp [hx], ?_⟩
          intro d hd
          rcases List.mem_cons.mp hd with h1 | h2
          · exact h1 ▸ hw
          · exact hws d h2
        · simp [eqAfterWs, he, hw] at h

theorem keyMatchAt_iff (s key : List Char) :
    keyMatchAt s key = true ↔
      ∃ w post, s = key ++ w ++ '=' :: post ∧ ∀ c ∈ w, wsChar c = true := by
  constructor
  · intro h
    simp only [keyMatchAt, Bool.and_eq_true] at h
    rcases h with ⟨h1, h2⟩
    rcases prefix_of_isPrefixOf h1 with ⟨rest, hr⟩
    subst hr
    rw [List.drop_left] at h2
    rcases eqAfterWs_elim h2 with ⟨w, t, hx, hws⟩
    exact ⟨w, t, by simp [hx], hws⟩
  · rintro ⟨w, post, hs, hws⟩
    subst hs
    simp only [keyMatchAt, Bool.and_eq_true]
    constructor
    · rw [List.append_assoc]
      exact isPrefixOf_append_self key (w ++ '=' :: post)
    · rw [show key ++ w ++ '=' :: post = key ++ (w ++ '=' :: post) by simp]
      rw [List.drop_left]
      exact eqAfterWs_of_ws post hws

theorem keyTestGo_elim {s key : List Char} (h : keyTestGo s key = true) :
    ∃ a b, s = a ++ '\n' :: b ∧ keyMatchAt b key = true := by
  induction s with
  | nil => simp [keyTestGo] at h
  | cons c r ih =>
      have h' := h
      simp only [keyTestGo, Bool.or_eq_true, Bool.and_eq_true] at h'
      rcases h' with ⟨hc, hm⟩ | h2
      · exact ⟨[], r, by simp [(beq_iff_eq.mp hc : c = '\n')], hm⟩
      · rcases ih h2 with ⟨a, b, hr, hm⟩
        exact ⟨c :: a, b, by simp [hr], hm⟩

theorem keyTestGo_of_split {a b key : List Char} (hm : keyMatchAt b key = true) :
    keyTestGo (a ++ '\n' :: b) key = true := by
  induction a with
  | nil => simp [keyTestGo, hm]
  | cons c r ih => simp [keyTestGo, ih]

/-- The Merger's duplicate-key regex test holds exactly when the scanned
text has an anchored `key` — at the very start or right after a newline —
followed by (possibly line-crossing) whitespace and `=`. -/
theorem keyTest_iff_anchored (s key : List Char) :
    keyTest s key = true ↔ AnchoredKeyMatch s key := by
  constructor
  · intro h
    simp only [keyTest, Bool.or_eq_true] at h
    rcases h with h1 | h2
    · rcases (keyMatchAt_iff s key).mp h1 with ⟨w, post, hs, hws⟩
      exact ⟨[], w, post, by simpa using hs, Or.inl rfl, hws⟩
    · rcases keyTestGo_elim h2 with ⟨a, b, hs, hm⟩
      rcases (keyMatchAt_iff b key).mp hm with ⟨w, post, hb, hws⟩
      refine ⟨a ++ ['\n'], w, post, ?_, Or.inr ⟨a, rfl⟩, hws⟩
      subst hb
      simp [hs]
  · rintro ⟨pre, w, post, hs, hpre, hws⟩
    simp only [keyTest, Bool.or_eq_true]
    rcases hpre with h0 | ⟨p2, hp2⟩
    · subst h0
      exact Or.inl ((keyMatchAt_iff s key).mpr ⟨w, post, by simpa using hs, hws⟩)
    · subst hp2
      refine Or.inr ?_
      have hb : keyMatchAt (key ++ w ++ '=' :: post) key = true :=
        (keyMatchAt_iff _ key).mpr ⟨w, post, by simp, hws⟩
      have : s = p2 ++ '\n' :: (key ++ w ++ '=' :: post) := by simpa using hs
      rw [this]
      exact keyTestGo_of_split hb

theorem dropWhile_head_not {p : Char → Bool} :
    ∀ {s c : List Char} {x : Char}, List.dropWhile p s = x :: c → p x = false := by
  intro s
  induction s with
  | nil => intro c x h; simp [List.dropWhile] at h
  | cons a t ih =>
      intro c x h
      by_cases hp : p a = true
      · rw [List.dropWhile_cons_of_pos hp] at h
        exact ih h
      · rw [List.dropWhile_cons_of_neg hp] at h
        cases h
        exact Bool.eq_false_iff.mpr hp

theorem dropWhile_append_of_all {p : Char → Bool} {u : List Char} (v : List Char)
    (hu : ∀ c ∈ u, p c = true) :
    List.dropWhile p (u ++ v) = List.dropWhile p v := by
  induction u with
  | nil => simp
  | cons a t ih =>
      have ha : p a = true := hu a (by simp)
      have ht : ∀ c ∈ t, p c = true := fun c hc => hu c (by simp [hc])
      simpa [List.dropWhile_cons_of_pos ha] using ih ht

theorem dropWhile_of_head_not {p : Char → Bool} {s : List Char} {x : Char} {t : List Char}
    (hs : s = x :: t) (hx : p x = false) : List.dropWhile p s = s := by
  subst hs
  exact List.dropWhile_cons_of_neg (by simp [hx])

/-- Splitting off the trailing whitespace: `s` is its whitespace-right-trim
followed by whitespace, and the trim ends in a non-whitespace character. -/
theorem dropTrailWs_spec (s : List Char) :
    ∃ w, s = dropTrailWs s ++ w ∧ (∀ c ∈ w, wsChar c = true) ∧
      (∀ c, (dropTrailWs s).getLast? = some c → wsChar c = false) := by
  refine ⟨(List.takeWhile wsChar s.reverse).reverse, ?_, ?_, ?_⟩
  · have h1 : s = (List.takeWhile wsChar s.reverse ++ List.dropWhile wsChar s.reverse).reverse := by
      rw [List.takeWhile_append_dropWhile]
      simp
    rw [dropTrailWs]
    conv_lhs => rw [h1]
    rw [List.reverse_append]
  · intro c hc
    exact List.mem_takeWhile_imp (by simpa using hc)
  · intro c hc
    rw [dropTrailWs, List.getLast?_reverse] at hc
    cases hd : List.dropWhile wsChar s.reverse with
    | nil => rw [hd] at hc; simp at hc
    | cons x t =>
        rw [hd] at hc
        simp at hc
        exact hc ▸ dropWhile_head_not hd

/-- Right-trimming a string that is a non-whitespace-ended part followed by
whitespace returns exactly that part. -/
theorem dropTrailWs_append {k w : List Char}
    (hk : ∀ c, k.getLast? = some c → wsChar c = false)
    (hw : ∀ c ∈ w, wsChar c = true) : dropTrailWs (k ++ w) = k := by
  rw [dropTrailWs, List.reverse_append]
  rw [dropWhile_append_of_all k.reverse (fun c hc => hw c (by simpa using hc))]
  cases hk0 : k.reverse with
  | nil => simp at hk0; simp [hk0]
  | cons x t =>
      have hx : wsChar x = false := by
        apply hk x
        rw [List.getLast?_eq_head?_reverse, hk0]
        rfl
      rw [List.dropWhile_cons_of_neg (by simp [hx]), ← hk0]
      simp

/-- What `goodLine` guarantees, unfolded: the line is its own extracted key,
then optional whitespace, then `=` and the rest; the key is nonempty, free
of `=`, `\n` and `[`, and has non-whitespace first and last characters. -/
theorem goodLine_decomp {l : List Char} (h : goodLine l = true) :
    ∃ w t, l = keyOfLine l ++ w ++ '=' :: t ∧ (∀ c ∈ w, wsChar c = true) ∧
      keyOfLine l ≠ [] ∧
      (∀ c, (keyOfLine l).head? = some c → wsChar c = false) ∧
      (∀ c, (keyOfLine l).getLast? = some c → wsChar c = false) ∧
      (∀ c ∈ keyOfLine l, ¬(c = '=')) ∧
      (∀ c ∈ keyOfLine l, ¬(c = '\n')) := by
  simp only [goodLine, Bool.and_eq_true] at h
  obtain ⟨⟨hall, hhead⟩, heq⟩ := h
  have hall2 : ∀ c ∈ l, ¬(c = '\n') ∧ ¬(c = '[') := by
    intro c hc
    have := List.all_eq_true.mp hall c hc
    simpa using this
  obtain ⟨c0, t0, hl⟩ : ∃ c0 t0, l = c0 :: t0 := by
    cases l with
    | nil => simp at hhead
    | cons a b => exact ⟨a, b, rfl⟩
  have hc0 : wsChar c0 = false ∧ ¬(c0 = '=') := by
    rw [hl] at hhead
    simp at hhead
    exact hhead
  -- split l at the first '='
  set p : Char → Bool := fun c => !(c == '=') with hp
  have hsplit : l = List.takeWhile p l ++ List.dropWhile p l :=
    (List.takeWhile_append_dropWhile p l).symm
  have hb_mem : ∀ c ∈ List.takeWhile p l, ¬(c = '=') := by
    intro c hc
    have := List.mem_takeWhile_imp hc
    simpa [hp] using this
  -- the dropWhile part is nonempty and starts with '='
  obtain ⟨t1, hd⟩ : ∃ t1, List.dropWhile p l = '=' :: t1 := by
    cases hdw : List.dropWhile p l with
    | nil =>
        exfalso
        have hmem : ∀ c ∈ l, p c = true := by
          intro c hc
          have : c ∈ List.takeWhile p l := by
            rw [hsplit, hdw] at hc
            simpa using hc
          exact List.mem_takeWhile_imp this
        simp only [hasEq, List.any_eq_true] at heq
        rcases heq with ⟨c, hcl, hce⟩
        have h2 := hmem c hcl
        simp [hp, beq_iff_eq.mp hce] at h2
    | cons x t1 =>
        have hx := dropWhile_head_not hdw
        have hxe : x = '=' := by
          have := Bool.eq_false_iff.mp hx
          simp [hp] at this
          exact this
        exact ⟨t1, by simp [hdw, hxe]⟩
  -- the takeWhile part starts with the non-ws head of l
  have htb : List.takeWhile p l = c0 :: List.takeWhile p t0 := by
    rw [hl]
    exact List.takeWhile_cons_of_pos (by simp [hp, hc0.2])
  have hbq : takeBeforeEq l = List.takeWhile p l := rfl
  -- trimming: no leading whitespace, so trim = right-trim
  have hkey : keyOfLine l = dropTrailWs (takeBeforeEq l) := by
    rw [keyOfLine, trim, hbq, htb, List.dropWhile_cons_of_neg (by simp [hc0.1])]
  obtain ⟨w, hbw, hwws, hlast⟩ := dropTrailWs_spec (takeBeforeEq l)
  rw [← hkey] at hbw hlast
  have hknil : keyOfLine l ≠ [] := by
    intro h0
    rw [h0] at hbw
    simp at hbw
    have hws0 : wsChar c0 = true := by
      apply hwws c0
      rw [← hbw, hbq, htb]
      simp
    rw [hc0.1] at hws0
    exact Bool.false_ne_true hws0
  have hkmem : ∀ c ∈ keyOfLine l, c ∈ List.takeWhile p l := by
    intro c hc
    rw [← hbq, hbw]
    exact List.mem_append.mpr (Or.inl hc)
  have hfinal : l = keyOfLine l ++ w ++ '=' :: t1 := by
    conv_lhs => rw [hsplit, hd, ← hbq, hbw]
  refine ⟨w, t1, hfinal, hwws, hknil, ?_, hlast, ?_, ?_⟩
  · intro c hc
    obtain ⟨a, b, hk0⟩ : ∃ a b, keyOfLine l = a :: b := by
      cases hk : keyOfLine l with
      | nil => exact absurd hk hknil
      | cons a b => exact ⟨a, b, rfl⟩
    have h2 : c0 :: List.takeWhile p t0 = a :: (b ++ w) := by
      rw [← htb, ← hbq, hbw, hk0]
      simp
    have h2a : c0 = a := by
      injection h2
    rw [hk0] at hc
    simp at hc
    rw [← hc, ← h2a]
    exact hc0.1
  · intro c hc
    exact hb_mem c (hkmem c hc)
  · intro c hc
    have hcl : c ∈ l := by
      rw [hsplit]
      exact List.mem_append.mpr (Or.inl (hkmem c hc))
    exact fun hceq => (hall2 c hcl).1 hceq

theorem mem_of_getLast?_eq {l : List Char} {c : Char} (h : l.getLast? = some c) : c ∈ l := by
  rw [List.getLast?_eq_head?_reverse] at h
  have h2 : c ∈ l.reverse.head? := by simp [h]
  have h3 := List.mem_of_mem_head? h2
  simpa using h3

theorem trim_subset (s : List Char) : ∀ c ∈ trim s, c ∈ s := by
  intro c hc
  rw [trim] at hc
  obtain ⟨w, hw, _, _⟩ := dropTrailWs_spec (s.dropWhile wsChar)
  have h1 : c ∈ List.dropWhile wsChar s := hw ▸ List.mem_append.mpr (Or.inl hc)
  have h2 : s = List.takeWhile wsChar s ++ List.dropWhile wsChar s :=
    (List.takeWhile_append_dropWhile _ _).symm
  rw [h2]
  exact List.mem_append.mpr (Or.inr h1)

theorem goodLine_key_no_bracket {l : List Char} (h : goodLine l = true) :
    ∀ c ∈ keyOfLine l, ¬(c = '[') := by
  intro c hc hce
  simp only [goodLine, Bool.and_eq_true] at h
  have hcl : c ∈ l := by
    have h1 : c ∈ takeBeforeEq l := trim_subset _ c hc
    have h2 : l = takeBeforeEq l ++ List.dropWhile (fun c => !(c == '=')) l :=
      (List.takeWhile_append_dropWhile _ _).symm
    rw [h2]
    exact List.mem_append.mpr (Or.inl h1)
  have := List.all_eq_true.mp h.1.1 c hcl
  simp [hce] at this

theorem wsChar_ne_eq {c : Char} (h : wsChar c = true) : ¬(c = '=') := by
  intro he
  subst he
  simp [wsChar] at h

theorem split_at_char_one {x : Char} {a b c d : List Char}
    (h : a ++ x :: b = c ++ x :: d) (hc : ∀ ch ∈ c, ¬(ch = x)) :
    (a = c ∧ b = d) ∨ ∃ m, a = c ++ x :: m ∧ d = m ++ x :: b := by
  induction c generalizing a with
  | nil =>
      cases a with
      | nil =>
          simp at h
          exact Or.inl ⟨rfl, h⟩
      | cons y a' =>
          simp at h
          exact Or.inr ⟨a', by simp [h.1], h.2.symm⟩
  | cons z c' ih =>
      cases a with
      | nil =>
          simp at h
          exact absurd h.1.symm (hc z (by simp))
      | cons y a' =>
          simp at h
          rcases ih h.2 (fun ch hch => hc ch (by simp [hch])) with ⟨h1, h2⟩ | ⟨m, h1, h2⟩
          · exact Or.inl ⟨by simp [h.1, h1], h2⟩
          · exact Or.inr ⟨m, by simp [h.1, h1], h2⟩

theorem split_at_char_uniq {x : Char} {a b c d : List Char}
    (h : a ++ x :: b = c ++ x :: d)
    (ha : ∀ ch ∈ a, ¬(ch = x)) (hc : ∀ ch ∈ c, ¬(ch = x)) : a = c ∧ b = d := by
  rcases split_at_char_one h hc with h1 | ⟨m, h1, h2⟩
  · exact h1
  · exfalso
    exact ha x (by simp [h1]) rfl

theorem joinLines_cons {body : List (List Char)} (l : List Char) (h : body ≠ []) :
    joinLines (l :: body) = l ++ '\n' :: joinLines body := by
  cases body with
  | nil => exact absurd rfl h
  | cons b bs => rfl

theorem joinLines_mem {body : List (List Char)} {c : Char} (h : c ∈ joinLines body) :
    c = '\n' ∨ ∃ l ∈ body, c ∈ l := by
  induction body with
  | nil => simp [joinLines] at h
  | cons l rest ih =>
      cases rest with
      | nil =>
          simp [joinLines] at h
          exact Or.inr ⟨l, by simp, h⟩
      | cons r rs =>
          rw [joinLines_cons l (by simp)] at h
          rcases List.mem_append.mp h with h1 | h2
          · exact Or.inr ⟨l, by simp, h1⟩
          · rcases List.mem_cons.mp h2 with h3 | h4
            · exact Or.inl h3
            · rcases ih h4 with h5 | ⟨l2, hl2, hcl2⟩
              · exact Or.inl h5
              · exact Or.inr ⟨l2, by simp [hl2], hcl2⟩

theorem joinLines_split {body : List (List Char)} {A B : List Char}
    (hnl : ∀ l ∈ body, ∀ c ∈ l, ¬(c = '\n'))
    (h : joinLines body = A ++ '\n' :: B) :
    ∃ rest, B = joinLines rest ∧ rest ≠ [] ∧ ∀ l ∈ rest, l ∈ body := by
  induction body generalizing A with
  | nil =>
      exfalso
      have := congrArg List.length h
      simp [joinLines] at this
      omega
  | cons l rest ih =>
      cases rest with
      | nil =>
          exfalso
          have hBl : l = A ++ '\n' :: B := h
          exact hnl l (by simp) '\n' (by rw [hBl]; simp) rfl
      | cons r rs =>
          rw [joinLines_cons l (by simp)] at h
          rcases split_at_char_one h.symm (fun ch hch => hnl l (by simp) ch hch) with
            ⟨h1, h2⟩ | ⟨m, h1, h2⟩
          · exact ⟨r :: rs, h2, by simp, fun x hx => by simp [List.mem_cons.mp hx]⟩
          · rcases ih (fun x hx => hnl x (by simp [hx])) h2 with ⟨rest2, hB, hne, hsub⟩
            exact ⟨rest2, hB, hne, fun x hx => by
              rcases List.mem_cons.mp (hsub x hx) with h3 | h4
              · simp [h3]
              · simp [h4]⟩

theorem splitNl_no_nl {l : List Char} (h : ∀ c ∈ l, ¬(c = '\n')) : splitNl l = [l] := by
  induction l with
  | nil => rfl
  | cons c r ih =>
      have hc : ¬(c = '\n') := h c (by simp)
      have hr := ih (fun x hx => h x (by simp [hx]))
      simp [splitNl, hc, hr, consHead]

theorem splitNl_append {a b : List Char} (h : ∀ c ∈ a, ¬(c = '\n')) :
    splitNl (a ++ '\n' :: b) = a :: splitNl b := by
  induction a with
  | nil => simp [splitNl]
  | cons c r ih =>
      have hc : ¬(c = '\n') := h c (by simp)
      have hr := ih (fun x hx => h x (by simp [hx]))
      show splitNl (c :: (r ++ '\n' :: b)) = (c :: r) :: splitNl b
      simp only [splitNl, if_neg hc, hr, consHead]

theorem splitNl_joinLines {body : List (List Char)} (hne : body ≠ [])
    (hnl : ∀ l ∈ body, ∀ c ∈ l, ¬(c = '\n')) : splitNl (joinLines body) = body := by
  induction body with
  | nil => exact absurd rfl hne
  | cons l rest ih =>
      cases rest with
      | nil =>
          have := splitNl_no_nl (hnl l (by simp))
          simpa [joinLines] using this
      | cons r rs =>
          rw [joinLines_cons l (by simp), splitNl_append (hnl l (by simp)),
            ih (by simp) (fun x hx => hnl x (by simp [hx]))]

theorem specTake_all {s : List Char} (h : ∀ c ∈ s, ¬(c = '[')) : specTake s = s := by
  induction s with
  | nil => rfl
  | cons c r ih =>
      have hr := ih (fun x hx => h x (by simp [hx]))
      have hcond : ((c == '\n') && headIsBracket r) = false := by
        cases r with
        | nil => simp [headIsBracket]
        | cons y ys =>
            have hy : ¬(y = '[') := h y (by simp)
            simp [headIsBracket, hy]
      simp [specTake, hcond, hr]

theorem jsIndexOf_single_none {x : Char} {s : List Char} (h : ∀ c ∈ s, ¬(c = x)) :
    jsIndexOf? s [x] = none := by
  cases hj : jsIndexOf? s [x] with
  | none => rfl
  | some i =>
      exfalso
      have h1 := (jsIndexOf_eq_some hj).1
      have h2 := (singletonPrefix_iff x (s.drop i)).mp h1
      have h3 : x ∈ s.drop i := List.mem_of_mem_head? (by simp [h2])
      exact h x (List.drop_subset i s h3) rfl

theorem prefix_append_not_mem {key a b : List Char} {x : Char}
    (h : key <+: (a ++ x :: b)) (hx : x ∉ key) : key <+: a := by
  induction a generalizing key with
  | nil =>
      cases key with
      | nil => exact List.nil_prefix
      | cons c k' =>
          exfalso
          simp only [List.nil_append] at h
          have := (List.cons_prefix_cons.mp h).1
          exact hx (by simp [this])
  | cons y a' ih =>
      cases key with
      | nil => exact List.nil_prefix
      | cons c k' =>
          rw [List.cons_append] at h
          have h2 := List.cons_prefix_cons.mp h
          have h3 := ih h2.2 (fun hm => hx (by simp [hm]))
          exact List.cons_prefix_cons.mpr ⟨h2.1, h3⟩

theorem getLast?_of_ne_nil {e : List Char} (h : e ≠ []) :
    ∃ c, e.getLast? = some c ∧ c ∈ e := by
  have hr : e.reverse ≠ [] := by simpa using h
  rcases List.exists_cons_of_ne_nil hr with ⟨c, t, hct⟩
  refine ⟨c, ?_, ?_⟩
  · rw [List.getLast?_eq_head?_reverse, hct]
    rfl
  · have : c ∈ e.reverse := by simp [hct]
    simpa using this

theorem prefix_append_cases {e w d : List Char} (h : e <+: w ++ d) :
    e <+: w ∨ ∃ f, e = w ++ f ∧ f <+: d := by
  induction w generalizing e with
  | nil => exact Or.inr ⟨e, by simp, by simpa using h⟩
  | cons y w' ih =>
      cases e with
      | nil => exact Or.inl List.nil_prefix
      | cons c e' =>
          rw [List.cons_append] at h
          have h2 := List.cons_prefix_cons.mp h
          rcases ih h2.2 with h3 | ⟨f, h4, h5⟩
          · exact Or.inl (List.cons_prefix_cons.mpr ⟨h2.1, h3⟩)
          · exact Or.inr ⟨f, by simp [h2.1, h4], h5⟩

/-- If the anchored pattern `key\s*=` matches at the start of a well-formed
(or blank) line followed by the rest of the document, then the line is a
well-formed entry and the candidate key is exactly that line's declared
key: a prefix key (`ktor` vs `ktor-client-core`) can never match. -/
theorem keyMatch_line_eq {l tail key : List Char}
    (hgood : goodLine l = true ∨ l = [])
    (htail : tail = [] ∨ ∃ T, tail = '\n' :: T)
    (hk1 : key ≠ [])
    (hk2 : ∀ c ∈ key, ¬(c = '\n'))
    (hk3 : ∀ c ∈ key, ¬(c = '='))
    (hk4 : ∀ c, key.getLast? = some c → wsChar c = false)
    (hm : keyMatchAt (l ++ tail) key = true) :
    goodLine l = true ∧ key = keyOfLine l := by
  simp only [keyMatchAt, Bool.and_eq_true] at hm
  have hpre : key <+: l := by
    have h1 : key <+: (l ++ tail) := List.isPrefixOf_iff_prefix.mp hm.1
    rcases htail with h0 | ⟨T, hT⟩
    · simpa [h0] using h1
    · rw [hT] at h1
      exact prefix_append_not_mem h1 (fun hx => hk2 '\n' hx rfl)
  rcases hgood with hg | hnil
  · refine ⟨hg, ?_⟩
    obtain ⟨w, t, hl, hwws, hknil, hkhead, hklast, hkeq, hknl⟩ := goodLine_decomp hg
    have hklpre : keyOfLine l <+: l := by
      refine ⟨w ++ '=' :: t, ?_⟩
      conv_rhs => rw [hl]
      simp
    have heqws : eqAfterWs ((l ++ tail).drop key.length) = true := hm.2
    obtain ⟨rest, hrest⟩ : ∃ rest, key ++ rest = l := id hpre
    have hdrop : (l ++ tail).drop key.length = rest ++ tail := by
      rw [← hrest, List.append_assoc, List.drop_left]
    rcases List.prefix_or_prefix_of_prefix hpre hklpre with hck | hck
    · -- key is a prefix of the line's key
      obtain ⟨e, hkl⟩ : ∃ e, key ++ e = keyOfLine l := hck
      by_cases he : e = []
      · rw [he] at hkl
        simpa using hkl
      · exfalso
        -- the rest of the line after `key` starts with `e ++ w`, all of
        -- which would have to be whitespace for the regex to match
        have hrest2 : rest = e ++ w ++ '=' :: t := by
          have h9 : key ++ rest = key ++ (e ++ w ++ '=' :: t) := by
            rw [hrest]
            conv_lhs => rw [hl, ← hkl]
            simp
          exact List.append_cancel_left h9
        rw [hdrop, hrest2] at heqws
        obtain ⟨u, v, huv, hu⟩ := eqAfterWs_elim heqws
        have huv2 : (e ++ w) ++ '=' :: (t ++ tail) = u ++ '=' :: v := by
          rw [← huv]
          simp
        have hsplit := split_at_char_uniq huv2
          (fun ch hch => by
            rcases List.mem_append.mp hch with h1 | h2
            · exact hkeq ch (hkl ▸ List.mem_append.mpr (Or.inr h1))
            · exact wsChar_ne_eq (hwws ch h2))
          (fun ch hch => wsChar_ne_eq (hu ch hch))
        obtain ⟨c, hce, hcm⟩ := getLast?_of_ne_nil he
        have hcws : wsChar c = true := by
          apply hu c
          rw [← hsplit.1]
          exact List.mem_append.mpr (Or.inl hcm)
        have : (keyOfLine l).getLast? = some c := by
          rw [← hkl, List.getLast?_append, hce]
          rfl
        rw [hklast c this] at hcws
        exact Bool.false_ne_true hcws
    · -- the line's key is a prefix of `key`
      obtain ⟨e, hkl⟩ : ∃ e, keyOfLine l ++ e = key := hck
      by_cases he : e = []
      · rw [he] at hkl
        simpa using hkl.symm
      · exfalso
        have hepre : e <+: w ++ '=' :: t := by
          have h1 : key <+: keyOfLine l ++ (w ++ '=' :: t) := by
            rw [← List.append_assoc, ← hl]
            exact hpre
          rw [← hkl] at h1
          exact (List.prefix_append_right_inj _).mp h1
        obtain ⟨c, hce, hcm⟩ := getLast?_of_ne_nil he
        have hlaste : key.getLast? = some c := by
          rw [← hkl, List.getLast?_append, hce]
          rfl
        have hcnws : wsChar c = false := hk4 c hlaste
        rcases prefix_append_cases hepre with h1 | ⟨f, h2, h3⟩
        · -- e inside the whitespace run
          have : c ∈ w := h1.subset hcm
          rw [hwws c this] at hcnws
          simp at hcnws
        · cases f with
          | nil =>
              rw [List.append_nil] at h2
              have : c ∈ w := h2 ▸ hcm
              rw [hwws c this] at hcnws
              simp at hcnws
          | cons c2 f' =>
              have hc2 := (List.cons_prefix_cons.mp h3).1
              have : c2 ∈ key := by
                rw [← hkl, h2]
                simp
              exact hk3 c2 this hc2
  · exfalso
    subst hnil
    simp at hpre
    exact hk1 hpre

theorem goodLine_no_nl {l : List Char} (h : goodLine l = true) : ∀ c ∈ l, ¬(c = '\n') := by
  simp only [goodLine, Bool.and_eq_true] at h
  intro c hc hce
  have := List.all_eq_true.mp h.1.1 c hc
  simp [hce] at this

theorem goodLine_no_br {l : List Char} (h : goodLine l = true) : ∀ c ∈ l, ¬(c = '[') := by
  simp only [goodLine, Bool.and_eq_true] at h
  intro c hc hce
  have := List.all_eq_true.mp h.1.1 c hc
  simp [hce] at this

theorem goodLine_hasEq {l : List Char} (h : goodLine l = true) : hasEq l = true := by
  simp only [goodLine, Bool.and_eq_true] at h
  exact h.2

theorem goodSect_decomp {sect : List Char} (h : goodSect sect = true) :
    (∃ st, sect = '[' :: st) ∧ ∀ c ∈ sect, ¬(c = '\n') := by
  simp only [goodSect, Bool.and_eq_true] at h
  obtain ⟨h1, h2⟩ := h
  constructor
  · cases sect with
    | nil => simp at h1
    | cons c cs =>
        simp at h1
        exact ⟨cs, by rw [h1]⟩
  · intro c hc hce
    have := List.all_eq_true.mp h2 c hc
    simp [hce] at this

theorem goodBody_decomp {body : List (List Char)} (h : goodBody body = true) :
    body ≠ [] ∧ ∀ l ∈ body, goodLine l = true ∨ l = [] := by
  simp only [goodBody, Bool.and_eq_true] at h
  obtain ⟨h1, h2⟩ := h
  refine ⟨by simpa using h1, ?_⟩
  intro l hl
  have h3 := List.all_eq_true.mp h2 l hl
  simp only [Bool.or_eq_true] at h3
  rcases h3 with h4 | h4
  · exact Or.inl h4
  · exact Or.inr (by simpa using h4)

theorem body_no_nl {body : List (List Char)}
    (h : ∀ l ∈ body, goodLine l = true ∨ l = []) :
    ∀ l ∈ body, ∀ c ∈ l, ¬(c = '\n') := by
  intro l hl
  rcases h l hl with hg | he
  · exact goodLine_no_nl hg
  · intro c hc
    rw [he] at hc
    cases hc

theorem body_no_br {body : List (List Char)}
    (h : ∀ l ∈ body, goodLine l = true ∨ l = []) :
    ∀ c ∈ joinLines body, ¬(c = '[') := by
  intro c hc
  rcases joinLines_mem hc with h1 | ⟨l, hl, hcl⟩
  · rw [h1]
    intro hx
    cases hx
  · rcases h l hl with hg | he
    · exact goodLine_no_br hg c hcl
    · rw [he] at hcl
      cases hcl

/-- Every declared key of a well-formed line list is found by the Merger's
regex test on the joined text, anywhere in the document. -/
theorem keyTest_of_mem {body : List (List Char)} {l : List Char}
    (hmem : l ∈ body) (hg : goodLine l = true) :
    ∀ X : List Char, keyTest (X ++ '\n' :: joinLines body) (keyOfLine l) = true := by
  induction body with
  | nil => cases hmem
  | cons l0 rest ih =>
      intro X
      rcases List.mem_cons.mp hmem with h0 | h0
      · subst h0
        obtain ⟨w, t, hl, hwws, _, _, _, _, _⟩ := goodLine_decomp hg
        have hmatch : keyMatchAt (joinLines (l :: rest)) (keyOfLine l) = true := by
          apply (keyMatchAt_iff _ _).mpr
          cases rest with
          | nil =>
              refine ⟨w, t, ?_, hwws⟩
              simpa [joinLines] using hl
          | cons r rs =>
              refine ⟨w, t ++ '\n' :: joinLines (r :: rs), ?_, hwws⟩
              rw [joinLines_cons l (by simp)]
              conv_lhs => rw [hl]
              simp
        simp only [keyTest, Bool.or_eq_true]
        exact Or.inr (keyTestGo_of_split hmatch)
      · have hrne : rest ≠ [] := List.ne_nil_of_mem h0
        have h2 := ih h0 (X ++ '\n' :: l0)
        rw [joinLines_cons l0 hrne,
          show X ++ '\n' :: (l0 ++ '\n' :: joinLines rest) =
            (X ++ '\n' :: l0) ++ '\n' :: joinLines rest by simp]
        exact h2

/-- An anchored match against some suffix line list of the body pins the
key to one of the body's declared keys. -/
theorem mem_sectionKeys_of_match {body rest : List (List Char)} {key : List Char}
    (hbln : ∀ l ∈ body, goodLine l = true ∨ l = [])
    (hsub : ∀ l ∈ rest, l ∈ body) (hne : rest ≠ [])
    (hk1 : key ≠ [])
    (hk2 : ∀ c ∈ key, ¬(c = '\n'))
    (hk3 : ∀ c ∈ key, ¬(c = '='))
    (hk4 : ∀ c, key.getLast? = some c → wsChar c = false)
    (hm : keyMatchAt (joinLines rest) key = true) :
    key ∈ sectionKeys body := by
  obtain ⟨l0, rest2, hr⟩ := List.exists_cons_of_ne_nil hne
  subst hr
  have hl0 : l0 ∈ body := hsub l0 (by simp)
  have hline : goodLine l0 = true ∧ key = keyOfLine l0 := by
    cases rest2 with
    | nil =>
        exact keyMatch_line_eq (hbln l0 hl0) (Or.inl rfl) hk1 hk2 hk3 hk4
          (by simpa [joinLines] using hm)
    | cons r rs =>
        rw [joinLines_cons l0 (by simp)] at hm
        exact keyMatch_line_eq (hbln l0 hl0) (Or.inr ⟨joinLines (r :: rs), rfl⟩)
          hk1 hk2 hk3 hk4 hm
  rcases hline with ⟨hg, hkeq⟩
  rw [hkeq]
  simp only [sectionKeys, List.mem_map]
  exact ⟨l0, List.mem_filter.mpr ⟨hl0, goodLine_hasEq hg⟩, rfl⟩

/-- The Merger's duplicate test over a header-first bracket-free document
finds exactly the declared keys of the section body. -/
theorem keyTest_mkDoc {sect : List Char} {body : List (List Char)} {key : List Char}
    (hs : goodSect sect = true)
    (hb : ∀ l ∈ body, goodLine l = true ∨ l = [])
    (hk1 : key ≠ [])
    (hk2 : ∀ c ∈ key, ¬(c = '\n'))
    (hk3 : ∀ c ∈ key, ¬(c = '='))
    (hk4 : ∀ c, key.getLast? = some c → wsChar c = false)
    (hk5 : ∀ c ∈ key, ¬(c = '[')) :
    keyTest (mkDoc sect body) key = true ↔ key ∈ sectionKeys body := by
  obtain ⟨⟨st, hsect⟩, hsnl⟩ := goodSect_decomp hs
  constructor
  · intro ht
    simp only [keyTest, Bool.or_eq_true] at ht
    rcases ht with h0 | hgo
    · exfalso
      simp only [keyMatchAt, Bool.and_eq_true] at h0
      have h1 := List.isPrefixOf_iff_prefix.mp h0.1
      obtain ⟨k0, kt, hkey⟩ := List.exists_cons_of_ne_nil hk1
      rw [hkey, mkDoc, hsect] at h1
      have h2 := (List.cons_prefix_cons.mp (by simpa using h1)).1
      exact hk5 k0 (by simp [hkey]) h2
    · obtain ⟨A, B, hAB, hmB⟩ := keyTestGo_elim hgo
      have hAB2 : A ++ '\n' :: B = sect ++ '\n' :: joinLines body := by
        rw [← hAB]
        rfl
      rcases split_at_char_one hAB2 hsnl with ⟨h1, h2⟩ | ⟨m, h1, h2⟩
      · subst h2
        have hbne : body ≠ [] := by
          intro h0
          subst h0
          simp only [joinLines] at hmB
          simp only [keyMatchAt, Bool.and_eq_true] at hmB
          have := List.isPrefixOf_iff_prefix.mp hmB.1
          simp at this
          exact hk1 this
        exact mem_sectionKeys_of_match hb (fun l hl => hl) hbne hk1 hk2 hk3 hk4 hmB
      · obtain ⟨rest, hB, hne, hsubr⟩ := joinLines_split (body_no_nl hb) h2
        rw [hB] at hmB
        exact mem_sectionKeys_of_match hb hsubr hne hk1 hk2 hk3 hk4 hmB
  · intro hmem
    simp only [sectionKeys, List.mem_map, List.mem_filter] at hmem
    obtain ⟨l, ⟨hlb, hleq⟩, hkl⟩ := hmem
    have hlg : goodLine l = true := by
      rcases hb l hlb with h | h
      · exact h
      · rw [h] at hleq
        simp [hasEq] at hleq
    rw [← hkl]
    exact keyTest_of_mem hlb hlg sect

theorem codeSectionExtent_mkDoc {sect : List Char} {body : List (List Char)}
    (hb : ∀ l ∈ body, goodLine l = true ∨ l = []) :
    codeSectionExtent (mkDoc sect body) sect = some (mkDoc sect body) := by
  have h0 : jsIndexOf? (mkDoc sect body) sect = some 0 :=
    jsIndexOf_of_isPrefixOf (isPrefixOf_append_self sect _)
  have hnone : jsIndexOf? ((mkDoc sect body).drop sect.length) ['['] = none := by
    have hdrop : (mkDoc sect body).drop sect.length = '\n' :: joinLines body := by
      simp [mkDoc, List.drop_left]
    rw [hdrop]
    apply jsIndexOf_single_none
    intro c hc
    rcases List.mem_cons.mp hc with h1 | h2
    · rw [h1]
      intro hx
      cases hx
    · exact body_no_br hb c h2
  simp [codeSectionExtent, h0, hnone]

theorem updateTomlSection_mkDoc {sect line : List Char} {body : List (List Char)}
    (hs : goodSect sect = true)
    (hb : goodBody body = true)
    (hl : goodLine line = true) :
    updateTomlSection (mkDoc sect body) sect line = mkDoc sect (insertBody line body) ∧
    goodBody (insertBody line body) = true ∧
    ((sectionKeys body).Nodup → (sectionKeys (insertBody line body)).Nodup) := by
  obtain ⟨hbne, hbln⟩ := goodBody_decomp hb
  obtain ⟨w, t, hldec, hwws, hknil, hkhead, hklast, hkeq, hknl⟩ := goodLine_decomp hl
  have hkey : trim (takeBeforeEq line) = keyOfLine line := rfl
  have hext : codeSectionExtent (mkDoc sect body) sect = some (mkDoc sect body) :=
    codeSectionExtent_mkDoc hbln
  have hiff : keyTest (mkDoc sect body) (keyOfLine line) = true ↔
      keyOfLine line ∈ sectionKeys body :=
    keyTest_mkDoc hs hbln hknil hknl hkeq hklast (goodLine_key_no_bracket hl)
  by_cases hmem : keyOfLine line ∈ sectionKeys body
  · have htest : keyTest (mkDoc sect body) (keyOfLine line) = true := hiff.mpr hmem
    have hcont : (sectionKeys body).contains (keyOfLine line) = true := by
      simpa [List.contains] using List.elem_iff.mpr hmem
    have hins : insertBody line body = body := by
      simp [insertBody, hcont, hmem]
    rw [hins]
    refine ⟨?_, hb, fun h => h⟩
    simp [updateTomlSection, hext, hkey, htest]
  · have htest : keyTest (mkDoc sect body) (keyOfLine line) = false :=
      Bool.eq_false_iff.mpr (fun h => hmem (hiff.mp h))
    have hcont : (sectionKeys body).contains (keyOfLine line) = false := by
      rw [Bool.eq_false_iff]
      intro h
      exact hmem (List.elem_iff.mp (by simpa [List.contains] using h))
    have hins : insertBody line body = line :: body := by
      simp [insertBody, hcont, hmem]
    have hkeys : sectionKeys (line :: body) = keyOfLine line :: sectionKeys body := by
      simp [sectionKeys, List.filter_cons_of_pos (goodLine_hasEq hl)]
    rw [hins]
    refine ⟨?_, ?_, ?_⟩
    · simp only [updateTomlSection, hext, hkey, htest]
      rw [if_neg (by simp)]
      show replaceFirst (sect ++ '\n' :: joinLines body) sect (sect ++ '\n' :: line) =
        mkDoc sect (line :: body)
      rw [replaceFirst_of_indexOf (sect ++ '\n' :: line)
        (jsIndexOf_of_isPrefixOf (isPrefixOf_append_self sect ('\n' :: joinLines body)))]
      simp [mkDoc, joinLines_cons line hbne, List.drop_left]
    · simp only [goodBody, Bool.and_eq_true] at hb ⊢
      refine ⟨by simp, ?_⟩
      simp only [List.all_cons, Bool.and_eq_true]
      exact ⟨by simp [hl], hb.2⟩
    · intro hnd
      rw [hkeys]
      exact List.nodup_cons.mpr ⟨hmem, hnd⟩

theorem updateTomlSection_fold {sect : List Char} (hs : goodSect sect = true) :
    ∀ (ls : List (List Char)) (body : List (List Char)),
      goodBody body = true → (∀ l ∈ ls, goodLine l = true) →
      ∃ body2,
        ls.foldl (fun c l => updateTomlSection c sect l) (mkDoc sect body) = mkDoc sect body2 ∧
        goodBody body2 = true ∧
        ((sectionKeys body).Nodup → (sectionKeys body2).Nodup) := by
  intro ls
  induction ls with
  | nil =>
      intro body hb _
      exact ⟨body, rfl, hb, fun h => h⟩
  | cons l rest ih =>
      intro body hb hls
      obtain ⟨h1, h2, h3⟩ := updateTomlSection_mkDoc hs hb (hls l (by simp))
      obtain ⟨body2, hfold, hgb2, hnd2⟩ :=
        ih (insertBody l body) h2 (fun x hx => hls x (by simp [hx]))
      refine ⟨body2, ?_, hgb2, fun hnd => hnd2 (h3 hnd)⟩
      simp only [List.foldl_cons, h1]
      exact hfold

theorem claimSectionKeys_mkDoc {sect : List Char} {body : List (List Char)}
    (hs : goodSect sect = true) (hb : goodBody body = true) :
    claimSectionKeys (mkDoc sect body) sect = sectionKeys body := by
  obtain ⟨hbne, hbln⟩ := goodBody_decomp hb
  obtain ⟨⟨st, hsect⟩, hsnl⟩ := goodSect_decomp hs
  have h0 : jsIndexOf? (mkDoc sect body) sect = some 0 :=
    jsIndexOf_of_isPrefixOf (isPrefixOf_append_self sect _)
  have hsp : specTake ('\n' :: joinLines body) = '\n' :: joinLines body := by
    apply specTake_all
    intro c hc
    rcases List.mem_cons.mp hc with h1 | h2
    · rw [h1]
      intro hx
      cases hx
    · exact body_no_br hbln c h2
  have hext : specSectionExtent (mkDoc sect body) sect = some (mkDoc sect body) := by
    simp only [specSectionExtent, h0]
    rw [show (mkDoc sect body).drop (0 + sect.length) = '\n' :: joinLines body by
      simp [mkDoc, List.drop_left]]
    rw [hsp]
    simp [mkDoc, List.take_left]
  rw [claimSectionKeys, hext]
  have hsplit : splitNl (mkDoc sect body) = sect :: body := by
    rw [mkDoc, splitNl_append hsnl, splitNl_joinLines hbne (body_no_nl hbln)]
  simp [hsplit]

theorem head?_drop (s : List Char) (k : Nat) : (s.drop k).head? = s[k]? := by
  rw [List.head?_eq_getElem?, List.getElem?_drop]
  simp

theorem jsIndexOf_single_iff {x : Char} {s : List Char} {j : Nat} :
    jsIndexOf? s [x] = some j ↔ s[j]? = some x ∧ ∀ k, k < j → ¬(s[k]? = some x) := by
  constructor
  · intro h
    obtain ⟨h1, h2⟩ := jsIndexOf_eq_some h
    constructor
    · rw [← head?_drop]
      exact (singletonPrefix_iff x (s.drop j)).mp h1
    · intro k hk hsk
      have h3 : ([x] : List Char).isPrefixOf (s.drop k) = true :=
        (singletonPrefix_iff x (s.drop k)).mpr (by rw [head?_drop]; exact hsk)
      rw [h2 k hk] at h3
      exact Bool.false_ne_true h3
  · rintro ⟨h1, h2⟩
    cases hj : jsIndexOf? s [x] with
    | none =>
        exfalso
        have h3 := jsIndexOf_eq_none hj j
        have h4 : ([x] : List Char).isPrefixOf (s.drop j) = true :=
          (singletonPrefix_iff x (s.drop j)).mpr (by rw [head?_drop]; exact h1)
        rw [h3] at h4
        exact Bool.false_ne_true h4
    | some j2 =>
        obtain ⟨h3, h4⟩ := jsIndexOf_eq_some hj
        have h5 : s[j2]? = some x := by
          rw [← head?_drop]
          exact (singletonPrefix_iff x (s.drop j2)).mp h3
        rcases Nat.lt_trichotomy j2 j with hlt | heq | hgt
        · exact absurd h5 (h2 j2 hlt)
        · rw [heq]
        · exfalso
          have h6 : ([x] : List Char).isPrefixOf (s.drop j) = true :=
            (singletonPrefix_iff x (s.drop j)).mpr (by rw [head?_drop]; exact h1)
          rw [h4 j hgt] at h6
          exact Bool.false_ne_true h6

/-- C3 (amended): the Merger's scanned region, characterized: given the
header's first occurrence at position `i`, the region runs from the header
to end-of-file when no `'['` occurs after the header, and otherwise stops
exactly at the **first** `'['` character at or after the end of the
header — wherever within a line that character sits, not only at a line
start. -/
theorem codeSectionExtent_first_bracket {content sect : List Char} {i : Nat}
    (h : jsIndexOf? content sect = some i) :
    (codeSectionExtent content sect = some (content.drop i) ∧
       ∀ c ∈ content.drop (i + sect.length), ¬(c = '[')) ∨
    (∃ j, codeSectionExtent content sect =
        some ((content.take (i + sect.length + j)).drop i) ∧
      (content.drop (i + sect.length))[j]? = some '[' ∧
      ∀ k, k < j → ¬((content.drop (i + sect.length))[k]? = some '[')) := by
  cases hj : jsIndexOf? (content.drop (i + sect.length)) ['['] with
  | none =>
      left
      refine ⟨by simp [codeSectionExtent, h, hj], ?_⟩
      intro c hc hce
      subst hce
      obtain ⟨k, hk⟩ := List.mem_iff_getElem?.mp hc
      have h3 := jsIndexOf_eq_none hj k
      have h4 : (['['] : List Char).isPrefixOf ((content.drop (i + sect.length)).drop k) = true :=
        (singletonPrefix_iff _ _).mpr (by rw [head?_drop]; exact hk)
      rw [h3] at h4
      exact Bool.false_ne_true h4
  | some j =>
      right
      obtain ⟨h1, h2⟩ := jsIndexOf_single_iff.mp hj
      exact ⟨j, by simp [codeSectionExtent, h, hj], h1, h2⟩

theorem installDeps_some {f : List Char → Option (List AddonStep)} {ds : List (List Char)}
    (h : ∀ d ∈ ds, ∃ t, f d = some t) : ∃ t, installDeps f ds = some t := by
  induction ds with
  | nil => exact ⟨[], rfl⟩
  | cons d ds2 ih =>
      obtain ⟨t1, ht1⟩ := h d (by simp)
      obtain ⟨t2, ht2⟩ := ih (fun x hx => h x (by simp [hx]))
      exact ⟨t1 ++ t2, by simp [installDeps, ht1, ht2]⟩

theorem installDeps_none {f : List Char → Option (List AddonStep)} {ds : List (List Char)}
    {y : List Char} (hy : y ∈ ds) (hfy : f y = none) : installDeps f ds = none := by
  induction ds with
  | nil => cases hy
  | cons d ds2 ih =>
      rcases List.mem_cons.mp hy with h1 | h1
      · rw [← h1]
        simp [installDeps, hfy]
      · cases hfd : f d with
        | none => simp [installDeps, hfd]
        | some t => simp [installDeps, hfd, ih h1]

/-- With a rank function that strictly decreases along prerequisite edges
(an acyclicity certificate), `install` terminates: fuel beyond the recipe's
rank suffices. -/
theorem installTrace_some_of_rank (env : List Char → Option AddonRecipe)
    (vs : List (List Char × List Char)) (rank : List Char → Nat)
    (hr : ∀ x r, env x = some r → ∀ d ∈ (r.dependencies).getD [], rank d < rank x) :
    ∀ fuel x, rank x < fuel → ∃ t, installTrace env vs fuel x = some t := by
  intro fuel
  induction fuel with
  | zero => intro x hx; omega
  | succ n ih =>
      intro x hx
      cases he : env x with
      | none => exact ⟨[], by simp [installTrace, he]⟩
      | some r =>
          have hdeps : ∀ d ∈ (r.dependencies).getD [], ∃ t, installTrace env vs n d = some t := by
            intro d hd
            exact ih d (by have := hr x r he d hd; omega)
          obtain ⟨t, ht⟩ := installDeps_some hdeps
          exact ⟨t ++ r.steps.map (patchStep vs), by simp [installTrace, he, ht]⟩

/-- A set of recipe names each of which resolves and has a prerequisite
back inside the set (a reachable cycle) makes `install` diverge: no fuel
is ever enough. -/
theorem installTrace_none_of_cycle (env : List Char → Option AddonRecipe)
    (vs : List (List Char × List Char)) (S : List (List Char))
    (hS : ∀ x ∈ S, ∃ r, env x = some r ∧ ∃ y, y ∈ (r.dependencies).getD [] ∧ y ∈ S) :
    ∀ fuel x, x ∈ S → installTrace env vs fuel x = none := by
  intro fuel
  induction fuel with
  | zero => intro x _; rfl
  | succ n ih =>
      intro x hx
      obtain ⟨r, her, y, hy, hyS⟩ := hS x hx
      simp [installTrace, her, installDeps_none hy (ih y hyS)]

theorem patchFile_foldl_id {content : List Char} {repl : List (List Char × List Char)}
    (h : ∀ kv ∈ repl, hasSub content kv.1 = false) :
    patchFile content repl = content := by
  rw [patchFile]
  induction repl with
  | nil => rfl
  | cons kv rest ih =>
      rw [List.foldl_cons]
      have h1 : hasSub content kv.1 = false := h kv (by simp)
      rw [if_neg (by simp [h1])]
      exact ih (fun x hx => h x (by simp [hx]))

theorem installTrace_succ (env : List Char → Option AddonRecipe)
    (vs : List (List Char × List Char)) (fuel : Nat) (x : List Char) :
    installTrace env vs (fuel + 1) x =
      match env x with
      | none => some []
      | some r =>
          (installDeps (installTrace env vs fuel) ((r.dependencies).getD [])).map
            (fun t => t ++ r.steps.map (patchStep vs)) := rfl

/-- C1 (counterexample): starting from a fresh `[versions]` document and
inserting `b = 1`, then `a = "x[y"` (a value containing `[`), then `b = 2`,
the Merger re-inserts key `b`: the final section declares `b` twice, so the
final section does not contain each key at most once. -/
theorem c1_counterexample :
    claimSectionKeys c1start versionsHeader = [] ∧
    (claimSectionKeys c1final versionsHeader).count ['b'] = 2 ∧
    ¬(claimSectionKeys c1final versionsHeader).Nodup := by
  refine ⟨by decide, by decide, by decide⟩

/-- C1 (amended): for a document that is the target section itself —
header line, then well-formed `key = value` body lines or blanks, with no
`[` in the body and no duplicate keys — any sequence of Merger insertions
of well-formed single-line entries containing no `[` leaves each key
declared at most once in the section's final content.  The `_hplain` and
`_hlit` hypotheses confine the statement to the domain on which the text
model is the program: plain ASCII carriage-return-free text, `$`-free
header and insertion lines (the JS replacement string substitutes `$`
patterns), and regex-metacharacter-free candidate keys (the source
interpolates the key into its regex unescaped).  On that domain the JS
key test is exactly `keyTest`, so the conclusion holds of the program. -/
theorem c1_no_duplicate_keys (sect : List Char) (body : List (List Char))
    (ls : List (List Char)) (hs : goodSect sect = true) (hb : goodBody body = true)
    (hnd : (sectionKeys body).Nodup) (hls : ∀ l ∈ ls, goodLine l = true)
    (_hplain : plainText sect = true ∧ sect.all (fun c => !(c == '$')) = true ∧
      ∀ l ∈ body, plainText l = true)
    (_hlit : ∀ l ∈ ls, literalInsertLine l = true) :
    (claimSectionKeys
      (ls.foldl (fun c l => updateTomlSection c sect l) (mkDoc sect body))
      sect).Nodup := by
  obtain ⟨body2, hfold, hgb2, hnd2⟩ := updateTomlSection_fold hs ls body hb hls
  rw [hfold, claimSectionKeys_mkDoc hs hgb2]
  exact hnd2 hnd

/-- Witness for the amended C1: three insertions (one a repeat of key
`ktor`) into a fresh `[versions]` document leave no duplicate key. -/
theorem c1_no_duplicate_keys_witness :
    goodSect versionsHeader = true ∧ goodBody [([] : List Char)] = true ∧
    (claimSectionKeys
      ([("ktor = \"1\"").data, ("ktor-client-core = \"2\"").data, ("ktor = \"3\"").data].foldl
        (fun c l => updateTomlSection c versionsHeader l)
        (mkDoc versionsHeader [([] : List Char)]))
      versionsHeader).Nodup := by
  refine ⟨by decide, by decide, ?_⟩
  exact c1_no_duplicate_keys versionsHeader [([] : List Char)]
    [("ktor = \"1\"").data, ("ktor-client-core = \"2\"").data, ("ktor = \"3\"").data]
    (by decide) (by decide) (by decide) (by decide) (by decide) (by decide)

/-- C2 (counterexample): in the document `"[versions]\nktor\n= 1\n"` no
line begins with the key `ktor` followed by optional whitespace and `=`
(the `ktor` line has no `=`, the `= 1` line does not start with the key),
yet inserting `ktor = "2.0.0"` is suppressed, because the `\s*` of the
regex crosses the line break.  So a line-local anchored match is not the
only way an insertion gets suppressed. -/
theorem c2_counterexample :
    jsIndexOf? c2doc versionsHeader = some 0 ∧
    (splitNl c2doc).all (fun l => !(lineBeginsKeyEq l (("ktor").data))) = true ∧
    updateTomlSection c2doc versionsHeader (("ktor = \"2.0.0\"").data) = c2doc := by
  refine ⟨by decide, by decide, by decide⟩

/-- C2 (amended): the duplicate test is key-anchored, not a substring
match: `ktor` is inserted despite a pre-existing `ktor-client-core` and
vice versa; and for candidate keys free of regex metacharacters (the
source interpolates the key into its regex unescaped, so only such keys
are matched as written — every catalog key of the repository qualifies),
over plain ASCII carriage-return-free text, the test succeeds exactly on
an anchored occurrence of the key — at the start of a line — followed by
optional whitespace (which, per the regex `\s` class, may span line
breaks) and `=`. -/
theorem c2_key_anchoring :
    updateTomlSection c2docA librariesHeader (("ktor = \"1\"").data) =
      ("[libraries]\nktor = \"1\"\nktor-client-core = \"x\"\n").data ∧
    updateTomlSection c2docB librariesHeader (("ktor-client-core = \"x\"").data) =
      ("[libraries]\nktor-client-core = \"x\"\nktor = \"1\"\n").data ∧
    ∀ s key, plainText s = true → literalKey key = true →
      (keyTest s key = true ↔ AnchoredKeyMatch s key) :=
  ⟨by decide, by decide, fun s key _ _ => keyTest_iff_anchored s key⟩

/-- Witness for the amended C2: the key `ktor` is plain and
metacharacter-free, and on the cross-line document `c2doc` the iff turns
its suppression into an anchored occurrence. -/
theorem c2_key_anchoring_witness : AnchoredKeyMatch c2doc (("ktor").data) :=
  (c2_key_anchoring.2.2 c2doc (("ktor").data) (by decide) (by decide)).mp (by decide)

/-- C3 (counterexample): with `foo = "a[b"` in the section, the region the
code scans stops at the `[` inside the value — excluding the later
`bar = 1` line — whereas the claim's region (to the next line starting
with `[`, or end-of-file) is the whole document. -/
theorem c3_counterexample :
    codeSectionExtent c3doc versionsHeader = some (("[versions]\nfoo = \"a").data) ∧
    specSectionExtent c3doc versionsHeader = some c3doc ∧
    codeSectionExtent c3doc versionsHeader ≠ specSectionExtent c3doc versionsHeader := by
  refine ⟨by decide, by decide, by decide⟩

/-- Witness for the amended C3 at a concrete document with a mid-line
bracket. -/
theorem c3_extent_witness :
    (codeSectionExtent c3doc versionsHeader = some (c3doc.drop 0) ∧
       ∀ c ∈ c3doc.drop (0 + versionsHeader.length), ¬(c = '[')) ∨
    (∃ j, codeSectionExtent c3doc versionsHeader =
        some ((c3doc.take (0 + versionsHeader.length + j)).drop 0) ∧
      (c3doc.drop (0 + versionsHeader.length))[j]? = some '[' ∧
      ∀ k, k < j → ¬((c3doc.drop (0 + versionsHeader.length))[k]? = some '[')) :=
  codeSectionExtent_first_bracket (by decide)

/-- C4: with recipe `a` requiring `b`, `b` requiring `c`, and `c` requiring
nothing, `install a` executes exactly `c`'s steps, then `b`'s steps, then
`a`'s steps, in that order, each list in its declared order (after the
version-placeholder substitution the source applies to every step). -/
theorem c4_install_depth_first (env : List Char → Option AddonRecipe)
    (vs : List (List Char × List Char)) (a b c : List Char) (ra rb rc : AddonRecipe)
    (ha : env a = some ra) (hb : env b = some rb) (hc : env c = some rc)
    (da : ra.dependencies = some [b]) (db : rb.dependencies = some [c])
    (dc : rc.dependencies = none) :
    installTrace env vs 3 a = some (((rc.steps ++ rb.steps) ++ ra.steps).map (patchStep vs)) := by
  simp [installTrace_succ, ha, hb, hc, da, db, dc, installDeps]

/-- Witness for C4: the chained recipes `a → b → c` of the built-in-style
registry `env3` produce the three steps in depth-first order. -/
theorem c4_install_depth_first_witness :
    installTrace env3 [] 3 (("a").data) =
      some (((recC.steps ++ recB.steps) ++ recA.steps).map (patchStep [])) := by
  exact c4_install_depth_first env3 [] (("a").data) (("b").data) (("c").data)
    recA recB recC (by decide) (by decide) (by decide) (by decide) (by decide) (by decide)

/-- C5: `install` terminates on every recipe whose prerequisite graph
carries a strictly decreasing rank (an acyclicity certificate): fuel
`rank + 1` already suffices; and whenever the recipe lies in a set of
resolvable recipes each of which lists a prerequisite back in the set (a
self-referential or cyclic prerequisite chain), the recursion exhausts
every fuel — there is no cycle detection. -/
theorem c5_install_termination (env : List Char → Option AddonRecipe)
    (vs : List (List Char × List Char)) (name : List Char) :
    (∀ rank : List Char → Nat,
        (∀ x r, env x = some r → ∀ d ∈ (r.dependencies).getD [], rank d < rank x) →
        ∃ t, installTrace env vs (rank name + 1) name = some t) ∧
    (∀ S : List (List Char), name ∈ S →
        (∀ x ∈ S, ∃ r, env x = some r ∧ ∃ y, y ∈ (r.dependencies).getD [] ∧ y ∈ S) →
        ∀ fuel, installTrace env vs fuel name = none) := by
  constructor
  · intro rank hr
    exact installTrace_some_of_rank env vs rank hr (rank name + 1) name (by omega)
  · intro S hname hS fuel
    exact installTrace_none_of_cycle env vs S hS fuel name hname

/-- Witness for C5: the prerequisite-free recipe installs with fuel 1,
while the self-referential recipe `loop` yields nothing at fuel 7 (nor at
any other). -/
theorem c5_install_termination_witness :
    (∃ t, installTrace envSolo [] 1 (("solo").data) = some t) ∧
    installTrace envLoop [] 7 (("loop").data) = none := by
  constructor
  · have h := (c5_install_termination envSolo [] (("solo").data)).1 (fun _ => 0) ?hr
    · simpa using h
    case hr =>
      intro x r hxr d hd
      by_cases hx : x = ("solo").data
      · rw [hx] at hxr
        simp [envSolo] at hxr
        rw [← hxr] at hd
        simp [recSolo] at hd
      · simp [envSolo, hx] at hxr
  · exact (c5_install_termination envLoop [] (("loop").data)).2 [("loop").data] (by simp)
      (by
        intro x hx
        simp at hx
        exact ⟨recLoop, by simp [envLoop, hx], ⟨("loop").data, by simp [recLoop], by simp⟩⟩)
      7

/-- C6 (counterexample): the root build file `c6doc` contains the `ksp`
alias line (with `apply false`), but not immediately after the plugins
opener; the root-plugin-activation step is **not** a no-op on it — it
inserts the alias a second time. -/
theorem c6_counterexample :
    hasSub c6doc (rootAliasLine (("ksp").data)) = true ∧
    gradlePluginRootStep c6doc (("ksp").data) ≠ c6doc := by
  refine ⟨by decide, by decide⟩

/-- C6 (amended): a root- (resp. module-) plugin-activation step is a
no-op exactly when the file already contains the *trimmed replacement* —
the plugins opener immediately followed by the alias line with the
inserted indentation — anywhere; otherwise, when the opener occurs, the
replacement is spliced in at the opener's **first** occurrence (and a file
with no opener is left unchanged). -/
theorem c6_plugin_activation (content k : List Char) :
    (hasSub content (trim (rootPluginRepl k)) = true →
      gradlePluginRootStep content k = content) ∧
    (hasSub content (trim (rootPluginRepl k)) = false →
      jsIndexOf? content pluginsOpener = none →
      gradlePluginRootStep content k = content) ∧
    (∀ i, hasSub content (trim (rootPluginRepl k)) = false →
      jsIndexOf? content pluginsOpener = some i →
      gradlePluginRootStep content k =
        content.take i ++ rootPluginRepl k ++ content.drop (i + pluginsOpener.length)) ∧
    (hasSub content (trim (modulePluginRepl k)) = true →
      gradlePluginModuleStep content k = content) ∧
    (hasSub content (trim (modulePluginRepl k)) = false →
      jsIndexOf? content pluginsOpener = none →
      gradlePluginModuleStep content k = content) ∧
    (∀ i, hasSub content (trim (modulePluginRepl k)) = false →
      jsIndexOf? content pluginsOpener = some i →
      gradlePluginModuleStep content k =
        content.take i ++ modulePluginRepl k ++ content.drop (i + pluginsOpener.length)) := by
  refine ⟨?_, ?_, ?_, ?_, ?_, ?_⟩
  · intro h
    simp [gradlePluginRootStep, addonPatchFile, h]
  · intro h hn
    simp [gradlePluginRootStep, addonPatchFile, h, replaceFirst_of_none _ hn]
  · intro i h hi
    simp [gradlePluginRootStep, addonPatchFile, h, replaceFirst_of_indexOf _ hi]
  · intro h
    simp [gradlePluginModuleStep, addonPatchFile, h]
  · intro h hn
    simp [gradlePluginModuleStep, addonPatchFile, h, replaceFirst_of_none _ hn]
  · intro i h hi
    simp [gradlePluginModuleStep, addonPatchFile, h, replaceFirst_of_indexOf _ hi]

/-- Witness for the amended C6: a re-run on an already-activated file is a
no-op; a file with no plugins opener is untouched; on `c6doc` (alias
present but not adjacent to the opener) the insertion lands right after
the file's first opener. -/
theorem c6_plugin_activation_witness :
    gradlePluginRootStep (rootPluginRepl (("ksp").data)) (("ksp").data) =
      rootPluginRepl (("ksp").data) ∧
    gradlePluginRootStep (("x").data) (("ksp").data) = ("x").data ∧
    gradlePluginRootStep c6doc (("ksp").data) =
      c6doc.take 0 ++ rootPluginRepl (("ksp").data) ++ c6doc.drop (0 + pluginsOpener.length) ∧
    gradlePluginModuleStep (("y").data) (("hilt").data) = ("y").data := by
  refine ⟨?_, ?_, ?_, ?_⟩
  · exact (c6_plugin_activation (rootPluginRepl (("ksp").data)) (("ksp").data)).1 (by decide)
  · exact (c6_plugin_activation (("x").data) (("ksp").data)).2.1 (by decide) (by decide)
  · exact (c6_plugin_activation c6doc (("ksp").data)).2.2.1 0 (by decide) (by decide)
  · exact (c6_plugin_activation (("y").data) (("hilt").data)).2.2.2.2.1 (by decide) (by decide)

/-- C7 (counterexample): with the map sending token `{{A}}` to `{{A}}x`,
one pass yields `{{A}}x` but a second pass yields `{{A}}xx`: the
Placeholder Patcher is not idempotent for maps whose values re-introduce
a token. -/
theorem c7_counterexample :
    patchFile (patchFile c7tok c7map) c7map ≠ patchFile c7tok c7map := by
  decide

/-- C7 (amended): the Placeholder Patcher is idempotent whenever no token
of the map still occurs in the once-patched content — exactly the
"tokens no longer appear" situation of ordinary brace tokens whose
replacement values contain no token. -/
theorem c7_patch_idempotent (content : List Char) (repl : List (List Char × List Char))
    (h : ∀ kv ∈ repl, hasSub (patchFile content repl) kv.1 = false) :
    patchFile (patchFile content repl) repl = patchFile content repl :=
  patchFile_foldl_id h

/-- Witness for the amended C7: patching `hello {{NAME}}` with
`{{NAME}} → world` twice equals patching once. -/
theorem c7_patch_idempotent_witness :
    patchFile (patchFile c7hello c7mapGood) c7mapGood = patchFile c7hello c7mapGood :=
  c7_patch_idempotent c7hello c7mapGood (by decide)

/-- C8 (counterexample): when the base template exists but the variant
template does not, the run does abort — but only after the base template
has already been copied into the destination, so a destination mutation
precedes the abort. -/
theorem c8_counterexample :
    (generateProjectCopyPhase true false false false).2 = some uiMissingMsg ∧
    GenAction.copyBase ∈ (generateProjectCopyPhase true false false false).1 := by
  refine ⟨by decide, by decide⟩

/-- C8 (amended): both missing-template cases abort with an error; the
base-template check fires after only the destination-directory creation
and before any copy, while the variant-template check fires only after the
base copy (and the optional app-removal and gitignore-rename), leaving a
partially built destination tree at that abort; with both templates
present the phase completes without error. -/
theorem c8_copy_phase_abort_points (u l g : Bool) :
    generateProjectCopyPhase false u l g = ([GenAction.ensureDir], some baseMissingMsg) ∧
    ((generateProjectCopyPhase true false l g).2 = some uiMissingMsg ∧
      GenAction.copyBase ∈ (generateProjectCopyPhase true false l g).1) ∧
    (generateProjectCopyPhase true true l g).2 = none := by
  cases u <;> cases l <;> cases g <;> exact ⟨by decide, ⟨by decide, by decide⟩, by decide⟩

/-- C9: the project name `123 Cool App!` sanitizes to the package segment
`coolapp` and yields `com.example.coolapp`; any name whose sanitization is
empty falls back to the fixed segment `androidapp`. -/
theorem c9_project_name_sanitization :
    safeProjectNameOf (("123 Cool App!").data) = ("coolapp").data ∧
    packageNameOf (("123 Cool App!").data) = ("com.example.coolapp").data ∧
    ∀ n, safeProjectNameOf n = [] → packageNameOf n = ("com.example.androidapp").data := by
  refine ⟨by decide, by decide, ?_⟩
  intro n h
  simp [packageNameOf, h]

/-- Witness for C9's fallback clause at the all-punctuation name `!!!`. -/
theorem c9_project_name_sanitization_witness :
    safeProjectNameOf (("!!!").data) = [] ∧
    packageNameOf (("!!!").data) = ("com.example.androidapp").data :=
  ⟨by decide, c9_project_name_sanitization.2.2 (("!!!").data) (by decide)⟩

/-- C10: the Addon Installer's `patch_file` primitive replaces only the
**first** occurrence of the pattern — the text after the replaced region,
including any later occurrence of the pattern, is preserved verbatim —
whereas the Placeholder Patcher replaces all occurrences of a token
(second conjunct, on a file with the token twice). -/
theorem c10_patch_file_first_occurrence (content pat repl : List Char) (i : Nat)
    (hguard : hasSub content (trim repl) = false)
    (hidx : jsIndexOf? content pat = some i) :
    addonPatchFile content pat repl =
      content.take i ++ repl ++ content.drop (i + pat.length) ∧
    patchFile (("ab ab").data) [((("ab").data), (("X").data))] = ("X X").data := by
  refine ⟨?_, by decide⟩
  simp [addonPatchFile, hguard, replaceFirst_of_indexOf _ hidx]

/-- Witness for C10: on `ab ab` with pattern `ab`, only the first
occurrence becomes `X`. -/
theorem c10_patch_file_first_occurrence_witness :
    addonPatchFile (("ab ab").data) (("ab").data) (("X").data) = ("X ab").data := by
  have h := (c10_patch_file_first_occurrence (("ab ab").data) (("ab").data) (("X").data) 0
    (by decide) (by decide)).1
  rw [h]
  decide
